import Mathlib

/-!
Shallow embedding of the cryojax forward-imaging and likelihood core:
direct-binning projection (`imaging.py`), helical lattice geometry
(`simulator/_assembly/_helix.py`), assembly pose composition
(`simulator/assembly/_assembly.py`), NUFFT projection post-processing
(`simulator/_scattering/_nufft_project.py`) and the independent-Fourier
Gaussian distribution (`inference/distributions/_gaussian_distributions.py`).
-/

namespace CryojaxSpec

open Matrix

/-! ## Direct-binning projection (`imaging.py`, `project`)

`jnp.rint` rounds to the nearest integer with ties going to the even
integer; coordinates are modelled as rationals so that everything is
decidable on concrete inputs. -/

/-- Round half to even, the semantics of `jnp.rint` on exact inputs. -/
def rint (x : ℚ) : ℤ :=
  let f := x - ⌊x⌋
  if f < 1/2 then ⌊x⌋
  else if 1/2 < f then ⌊x⌋ + 1
  else if Even ⌊x⌋ then ⌊x⌋ else ⌊x⌋ + 1

/-- Clipping of an integer index into `[0, n-1]`, the semantics of
`jnp.ravel_multi_index` with `mode='clip'` on each axis. -/
def clipIdx (i : ℤ) (n : ℕ) : ℕ :=
  (max 0 (min i ((n : ℤ) - 1))).toNat

/-- The output pixel a 3D point is binned to: round the in-plane (axis-1,
axis-2) coordinates, shift the origin from the image center to the corner,
and clip into the valid index range (`imaging.py` lines 35-39). -/
def pix (N2 N3 : ℕ) (c : ℚ × ℚ × ℚ) : ℕ × ℕ :=
  (clipIdx (rint c.2.1 + (N2 : ℤ) / 2) N2, clipIdx (rint c.2.2 + (N3 : ℤ) / 2) N3)

/-- `project volume coords (N2, N3)` from `imaging.py`: weighted histogram of
the points over the output pixels (`bincount` over the flattened clipped
indices), viewed pointwise: the value of the output image at pixel `(i, j)`. -/
def project (volume : List ℚ) (coords : List (ℚ × ℚ × ℚ)) (N2 N3 : ℕ)
    (i j : ℕ) : ℚ :=
  (((volume.zip coords).filter (fun p => pix N2 N3 p.2 = (i, j))).map Prod.fst).sum

/-- The total mass of the output image: the sum of `project` over all valid
pixels of the `(N2, N3)` image. -/
def projectTotal (volume : List ℚ) (coords : List (ℚ × ℚ × ℚ)) (N2 N3 : ℕ) : ℚ :=
  ∑ i ∈ Finset.range N2, ∑ j ∈ Finset.range N3, project volume coords N2 N3 i j

/-! ## Helical lattice geometry (`simulator/_assembly/_helix.py`)

The code works with floating-point arrays; the embedding uses exact reals,
3-vectors as `Fin 3 → ℝ` and rotation matrices as `Matrix (Fin 3) (Fin 3) ℝ`.
The flattening order of the final `reshape` is start-index major, subunit
index minor, exactly as produced by `vmap` over symmetry angles. -/

noncomputable section

/-- `jnp.deg2rad`: multiply by `π / 180`. -/
def deg2rad (x : ℝ) : ℝ := x * (Real.pi / 180)

/-- The rotation about the screw (z) axis built repeatedly in `_helix.py`:
`((c, -s, 0), (s, c, 0), (0, 0, 1))` with `c, s = cos φ, sin φ`. -/
def Rz (φ : ℝ) : Matrix (Fin 3) (Fin 3) ℝ :=
  !![Real.cos φ, -Real.sin φ, 0;
     Real.sin φ, Real.cos φ, 0;
     0, 0, 1]

/-- `compute_ith_subunit_position_in_subhelix i θ dz r_0 N`: rotate the
initial displacement by `i·θ` about z, translate by `i` rises along z, and
subtract the centering offset `dz·(N−1)/2` in z. -/
def ithSubunitPositionInSubhelix (θ dz : ℝ) (r0 : Fin 3 → ℝ) (N : ℕ) (i : ℕ) :
    Fin 3 → ℝ :=
  (Rz ((i : ℝ) * θ)).mulVec r0 + (i : ℝ) • ![0, 0, dz]
    - ![0, 0, dz * ((N : ℝ) - 1) / 2]

/-- `compute_helical_lattice_positions` from `_helix.py`: build one
sub-helix of `n_subunits_per_start` positions, then replicate it over the
`n_start` symmetry angles `2πk/n_start`. -/
def compute_helical_lattice_positions (rise twist : ℝ)
    (n_subunits_per_start : ℕ) (initial_displacement : Fin 3 → ℝ)
    (n_start : ℕ) (degrees : Bool) : List (Fin 3 → ℝ) :=
  let θ := if degrees then deg2rad twist else twist
  (List.range n_start).flatMap fun k : ℕ =>
    (List.range n_subunits_per_start).map fun i : ℕ =>
      (Rz (2 * Real.pi * (k : ℝ) / (n_start : ℝ))).mulVec
        (ithSubunitPositionInSubhelix θ rise initial_displacement
          n_subunits_per_start i)

/-- `compute_helical_lattice_rotations` from `_helix.py`: the subunit `i` of
sub-helix `k` carries rotation `R_n(2πk/n_start) · (R_t(i·θ) · R_0)`. -/
def compute_helical_lattice_rotations (twist : ℝ) (n_subunits_per_start : ℕ)
    (initial_rotation : Matrix (Fin 3) (Fin 3) ℝ) (n_start : ℕ)
    (degrees : Bool) : List (Matrix (Fin 3) (Fin 3) ℝ) :=
  let θ := if degrees then deg2rad twist else twist
  (List.range n_start).flatMap fun k : ℕ =>
    (List.range n_subunits_per_start).map fun i : ℕ =>
      Rz (2 * Real.pi * (k : ℝ) / (n_start : ℝ))
        * (Rz ((i : ℝ) * θ) * initial_rotation)

/-- The mean z-coordinate of a list of lattice positions. -/
def meanZ (ps : List (Fin 3 → ℝ)) : ℝ := (ps.map fun p => p 2).sum / ps.length

end

/-- `Helix.__check_init__` from `_helix.py`: reject a subunit count that is
not a multiple of the start number. -/
def helixCheckInit (n_subunits n_start : ℕ) : Except String Unit :=
  if n_subunits % n_start ≠ 0 then
    Except.error
      "The number of subunits must be a multiple of the helical start number."
  else
    Except.ok ()

/-! ## Assembly pose composition (`simulator/assembly/_assembly.py`)

The pose collaborator exposes `rotate(points)`, `.offset` and
`.rotation.as_matrix()`; `rotate` applies the pose's rotation matrix to each
point. -/

noncomputable section

/-- The pose collaborator: a rigid transform, offset plus rotation matrix. -/
structure Pose where
  offset : Fin 3 → ℝ
  rotation : Matrix (Fin 3) (Fin 3) ℝ

/-- The vectorized `MatrixPose` built by `Assembly.poses`: per-subunit offset
components and rotation matrices. -/
structure MatrixPose where
  offset_x : List ℝ
  offset_y : List ℝ
  offset_z : List ℝ
  matrix : List (Matrix (Fin 3) (Fin 3) ℝ)

/-- `Assembly.poses` from `_assembly.py`: transform the lattice positions by
the assembly pose (`pose.rotate(positions) + pose.offset`) and compose each
lattice rotation with the assembly rotation
(`einsum("nij,jk->nik", rotations, pose.rotation.as_matrix())`). -/
def assemblyPoses (positions : List (Fin 3 → ℝ))
    (rotations : List (Matrix (Fin 3) (Fin 3) ℝ)) (pose : Pose) : MatrixPose :=
  let transformed_positions :=
    positions.map fun p => pose.rotation.mulVec p + pose.offset
  let transformed_rotations := rotations.map fun R => R * pose.rotation
  { offset_x := transformed_positions.map fun v => v 0
    offset_y := transformed_positions.map fun v => v 1
    offset_z := transformed_positions.map fun v => v 2
    matrix := transformed_rotations }

/-! ## Independent Fourier Gaussian distribution
(`inference/distributions/_gaussian_distributions.py`)

Fourier images are flat lists of complex mode values; the frequency grid is
a list of abstract frequency coordinates aligned with them, the variance a
real-valued operator on frequencies, and the pipeline's `render` and
`crop_and_apply_operators` collaborators are the rendered image and an
arbitrary image-to-image function. Shape bookkeeping is explicit: `oshape`
is the observed image's shape, `padded_shape` the padded frequency grid's
shape with the trailing coordinate axis dropped. -/

/-- `IndependentFourierGaussian.sample`: per-mode noise
`variance(freq) * normal_draw` is added to the uncropped rendered image and
the crop/mask/filter chain is applied. -/
def sample {F : Type} (variance : F → ℝ) (padded_freqs : List F)
    (draws : List ℝ) (rendered : List ℂ)
    (crop_and_apply_operators : List ℂ → List ℂ) : List ℂ :=
  let noise := List.zipWith (fun f d => variance f * d) padded_freqs draws
  crop_and_apply_operators
    (List.zipWith (fun img ns => img + (ns : ℂ)) rendered noise)

/-- Modelled from the spec: sampling as §4.4 describes it, the per-mode
Gaussian draw scaled by the square root of the variance so the noise has
standard deviation `sqrt(variance(freq))`. -/
def sampleSpecScaled {F : Type} (variance : F → ℝ) (padded_freqs : List F)
    (draws : List ℝ) (rendered : List ℂ)
    (crop_and_apply_operators : List ℂ → List ℂ) : List ℂ :=
  let noise := List.zipWith (fun f d => Real.sqrt (variance f) * d)
    padded_freqs draws
  crop_and_apply_operators
    (List.zipWith (fun img ns => img + (ns : ℂ)) rendered noise)

/-- `IndependentFourierGaussian.log_probability`: validate the observed
shape against the padded grid, form `render - observed`, apply the
crop/mask/filter chain, and return
`Re(Σ residual·conj(residual) / (2·variance(freq))) / n_modes`. -/
def log_probability {F : Type} (padded_shape : ℕ × ℕ) (freqs : List F)
    (variance : F → ℝ) (rendered : List ℂ)
    (crop_and_apply_operators : List ℂ → List ℂ)
    (oshape : ℕ × ℕ) (observed : List ℂ) : Except String ℝ :=
  if oshape ≠ padded_shape then
    Except.error "Shape of observed must match ImageConfig.padded_shape"
  else
    let residuals :=
      crop_and_apply_operators
        (List.zipWith (fun a b => a - b) rendered observed)
    let loss :=
      (List.zipWith
        (fun r f => (r * (starRingEnd ℂ) r) / (2 * ((variance f : ℝ) : ℂ)))
        residuals freqs).sum
    Except.ok (loss.re / residuals.length)

end

/-! ## NUFFT projection (`simulator/_scattering/_nufft_project.py`)

Everything after the `nufft1` call is post-processing in the source:
`ifftshift`, truncation to the non-redundant half-plane, and Nyquist
zeroing. `numpy.fft.ifftshift` rolls each axis left by `n // 2`, so output
index `i` reads input index `(i + n // 2) % n`. -/

noncomputable section

/-- Modelled from the spec: the external `jax_finufft.nufft1` collaborator
(`iflag = -1`, default centered mode ordering), which the source treats as a
type-1 nonuniform discrete Fourier transform onto the full `(M1, M2)` grid:
the entry at index `(a, b)` is the mode of integer frequency
`(a - M1//2, b - M2//2)`, so the zero-frequency mode sits at the central
index `(M1//2, M2//2)`. The first point array `s` pairs with the first
output axis. -/
def nufft1 (M1 M2 : ℕ) (weights : List ℂ) (s t : List ℝ) (a b : ℕ) : ℂ :=
  ((weights.zip (s.zip t)).map fun q =>
    q.1 * Complex.exp (-Complex.I *
      (((((a : ℤ) - (M1 : ℤ) / 2) : ℤ) : ℂ) * (q.2.1 : ℂ)
        + ((((b : ℤ) - (M2 : ℤ) / 2) : ℤ) : ℂ) * (q.2.2 : ℂ)))).sum

/-- `project_with_nufft` from `_nufft_project.py`: normalize the in-plane
coordinates to `[-π, π]`, evaluate the type-1 NUFFT (called as
`nufft1(shape, weights, y, x)`), shift zero frequency to the corner with
`ifftshift`, keep the `M2 // 2 + 1` non-redundant columns, and zero the
Nyquist column/row when the respective dimension is even. -/
def project_with_nufft (weights : List ℂ)
    (coordinate_list : List (ℝ × ℝ × ℝ)) (M1 M2 : ℕ) : List (List ℂ) :=
  let x := coordinate_list.map fun c => 2 * Real.pi * c.1 / (M1 : ℝ)
  let y := coordinate_list.map fun c => 2 * Real.pi * c.2.1 / (M2 : ℝ)
  (List.range M1).map fun a : ℕ =>
    (List.range (M2 / 2 + 1)).map fun b : ℕ =>
      if M2 % 2 = 0 ∧ b = M2 / 2 then 0
      else if M1 % 2 = 0 ∧ a = M1 / 2 then 0
      else nufft1 M1 M2 weights y x ((a + M1 / 2) % M1) ((b + M2 / 2) % M2)

end

lemma rint_zero : rint 0 = 0 := by
  norm_num [rint]

lemma clipIdx_lt (i : ℤ) (n : ℕ) (hn : 1 ≤ n) : clipIdx i n < n := by
  unfold clipIdx
  have h1 : max 0 (min i ((n : ℤ) - 1)) ≤ (n : ℤ) - 1 := by
    apply max_le
    · omega
    · exact min_le_right _ _
  omega

lemma clipIdx_self (k : ℕ) (n : ℕ) (hk : k < n) : clipIdx (k : ℤ) n = k := by
  unfold clipIdx
  have h1 : min (k : ℤ) ((n : ℤ) - 1) = (k : ℤ) := by omega
  rw [h1]
  omega

/-- Each point is binned to a valid pixel of a nonempty image. -/
lemma pix_mem (N2 N3 : ℕ) (h2 : 1 ≤ N2) (h3 : 1 ≤ N3) (c : ℚ × ℚ × ℚ) :
    (pix N2 N3 c).1 < N2 ∧ (pix N2 N3 c).2 < N3 :=
  ⟨clipIdx_lt _ _ h2, clipIdx_lt _ _ h3⟩

/-- Summing the per-pixel histogram over the full pixel grid recovers the sum
of all weights, because every point lands in exactly one valid pixel. -/
lemma sum_project_pairs (N2 N3 : ℕ) (h2 : 1 ≤ N2) (h3 : 1 ≤ N3)
    (l : List (ℚ × (ℚ × ℚ × ℚ))) :
    (∑ i ∈ Finset.range N2, ∑ j ∈ Finset.range N3,
      ((l.filter (fun p => pix N2 N3 p.2 = (i, j))).map Prod.fst).sum)
      = (l.map Prod.fst).sum := by
  induction l with
  | nil => simp
  | cons p l ih =>
    have hmem := pix_mem N2 N3 h2 h3 p.2
    have hsplit : ∀ i j,
        (((p :: l).filter (fun q => pix N2 N3 q.2 = (i, j))).map Prod.fst).sum
          = (if pix N2 N3 p.2 = (i, j) then p.1 else 0)
            + ((l.filter (fun q => pix N2 N3 q.2 = (i, j))).map Prod.fst).sum := by
      intro i j
      by_cases hp : pix N2 N3 p.2 = (i, j)
      · simp [List.filter_cons, hp]
      · simp [List.filter_cons, hp]
    simp only [hsplit, Finset.sum_add_distrib, ih]
    have hone : (∑ i ∈ Finset.range N2, ∑ j ∈ Finset.range N3,
        (if pix N2 N3 p.2 = (i, j) then p.1 else 0)) = p.1 := by
      rcases hpx : pix N2 N3 p.2 with ⟨a, b⟩
      rw [hpx] at hmem
      obtain ⟨haN, hbN⟩ := hmem
      rw [Finset.sum_eq_single a]
      · rw [Finset.sum_eq_single b]
        · simp
        · intro j hj hjb
          have hbj : b ≠ j := Ne.symm hjb
          simp [Prod.mk.injEq, hbj]
        · intro hb'
          exact absurd (Finset.mem_range.mpr hbN) hb'
      · intro i hi hia
        apply Finset.sum_eq_zero
        intro j hj
        have hai : a ≠ i := Ne.symm hia
        simp [Prod.mk.injEq, hai]
      · intro ha'
        exact absurd (Finset.mem_range.mpr haN) ha'
    rw [hone]
    simp [add_comm]

/-- C6: direct-binning projection of a single point whose in-plane
coordinates are exactly `(0, 0)` puts its weight at pixel `(N2/2, N3/2)` and
zero everywhere else; and when every point's rounded, shifted in-plane
indices lie inside `[0, N2) × [0, N3)`, the summed output equals the summed
input weight. -/
theorem c6_center_point_and_mass (w x0 : ℚ) (N2 N3 : ℕ)
    (h2 : 1 ≤ N2) (h3 : 1 ≤ N3) :
    (project [w] [(x0, 0, 0)] N2 N3 (N2 / 2) (N3 / 2) = w ∧
      ∀ i j, i < N2 → j < N3 → (i, j) ≠ (N2 / 2, N3 / 2) →
        project [w] [(x0, 0, 0)] N2 N3 i j = 0) ∧
    ∀ (volume : List ℚ) (coords : List (ℚ × ℚ × ℚ)),
      volume.length = coords.length →
      (∀ c ∈ coords,
        (0 ≤ rint c.2.1 + (N2 : ℤ) / 2 ∧ rint c.2.1 + (N2 : ℤ) / 2 < N2) ∧
        (0 ≤ rint c.2.2 + (N3 : ℤ) / 2 ∧ rint c.2.2 + (N3 : ℤ) / 2 < N3)) →
      projectTotal volume coords N2 N3 = volume.sum := by
  have hpix : pix N2 N3 (x0, 0, 0) = (N2 / 2, N3 / 2) := by
    have e2 : ((N2 / 2 : ℕ) : ℤ) = (N2 : ℤ) / 2 := Int.ofNat_div N2 2
    have e3 : ((N3 / 2 : ℕ) : ℤ) = (N3 : ℤ) / 2 := Int.ofNat_div N3 2
    have c2 : clipIdx ((N2 : ℤ) / 2) N2 = N2 / 2 := by
      rw [← e2]; exact clipIdx_self _ _ (Nat.div_lt_of_lt_mul (by omega))
    have c3 : clipIdx ((N3 : ℤ) / 2) N3 = N3 / 2 := by
      rw [← e3]; exact clipIdx_self _ _ (Nat.div_lt_of_lt_mul (by omega))
    simp [pix, rint_zero, c2, c3]
  constructor
  · constructor
    · have hpix' := hpix
      simp only [Prod.mk_zero_zero] at hpix'
      simp [project, List.filter_cons, hpix']
    · intro i j hi hj hne
      have hnp : pix N2 N3 (x0, 0, 0) ≠ (i, j) := by rw [hpix]; exact Ne.symm hne
      simp only [Prod.mk_zero_zero] at hnp
      simp [project, List.filter_cons, hnp]
  · intro volume coords hlen _
    unfold projectTotal project
    rw [sum_project_pairs N2 N3 h2 h3]
    rw [List.map_fst_zip volume coords (le_of_eq hlen)]

/-- C6 witness: concrete instance with `w = 5`, `x0 = 7`, `N2 = N3 = 4`. -/
theorem c6_center_point_and_mass_witness :
    (1 : ℕ) ≤ 4 ∧
    ((project [5] [(7, 0, 0)] 4 4 (4 / 2) (4 / 2) = 5 ∧
      ∀ i j, i < 4 → j < 4 → (i, j) ≠ (4 / 2, 4 / 2) →
        project [5] [(7, 0, 0)] 4 4 i j = 0) ∧
    ∀ (volume : List ℚ) (coords : List (ℚ × ℚ × ℚ)),
      volume.length = coords.length →
      (∀ c ∈ coords,
        (0 ≤ rint c.2.1 + (4 : ℤ) / 2 ∧ rint c.2.1 + (4 : ℤ) / 2 < 4) ∧
        (0 ≤ rint c.2.2 + (4 : ℤ) / 2 ∧ rint c.2.2 + (4 : ℤ) / 2 < 4)) →
      projectTotal volume coords 4 4 = volume.sum) :=
  ⟨by decide, c6_center_point_and_mass 5 7 4 4 (by decide) (by decide)⟩

/-- C7: the direct-binning projection never drops a sample: every point,
in range or not, is binned to a valid pixel (out-of-range indices are
clipped), and the total output mass equals the total input weight for
every input. -/
theorem c7_clip_conserves_mass (volume : List ℚ) (coords : List (ℚ × ℚ × ℚ))
    (N2 N3 : ℕ) (h2 : 1 ≤ N2) (h3 : 1 ≤ N3)
    (hlen : volume.length = coords.length) :
    (∀ c ∈ coords, (pix N2 N3 c).1 < N2 ∧ (pix N2 N3 c).2 < N3) ∧
    projectTotal volume coords N2 N3 = volume.sum := by
  refine ⟨fun c _ => pix_mem N2 N3 h2 h3 c, ?_⟩
  unfold projectTotal project
  rw [sum_project_pairs N2 N3 h2 h3]
  rw [List.map_fst_zip volume coords (le_of_eq hlen)]

/-- C7 witness: two points, one far outside the 2×2 image; mass is still
conserved. -/
theorem c7_clip_conserves_mass_witness :
    (1 : ℕ) ≤ 2 ∧ ([(3 : ℚ), 4].length = [((0 : ℚ), (0 : ℚ), (0 : ℚ)),
      (0, 100, -100)].length) ∧
    ((∀ c ∈ [((0 : ℚ), (0 : ℚ), (0 : ℚ)), (0, 100, -100)],
        (pix 2 2 c).1 < 2 ∧ (pix 2 2 c).2 < 2) ∧
      projectTotal [(3 : ℚ), 4] [((0 : ℚ), (0 : ℚ), (0 : ℚ)), (0, 100, -100)] 2 2
        = [(3 : ℚ), 4].sum) :=
  ⟨by decide, by decide,
    c7_clip_conserves_mass [3, 4] [(0, 0, 0), (0, 100, -100)] 2 2
      (by decide) (by decide) (by decide)⟩

/-! ## Lemmas about the helical lattice -/

lemma Rz_mulVec_z (φ : ℝ) (v : Fin 3 → ℝ) : (Rz φ).mulVec v 2 = v 2 := by
  simp [Rz, Matrix.mulVec, Matrix.dotProduct, Fin.sum_univ_three]

lemma ith_z (θ dz : ℝ) (r0 : Fin 3 → ℝ) (N : ℕ) (i : ℕ) :
    ithSubunitPositionInSubhelix θ dz r0 N i 2
      = r0 2 + (i : ℝ) * dz - dz * ((N : ℝ) - 1) / 2 := by
  simp only [ithSubunitPositionInSubhelix, Pi.add_apply, Pi.sub_apply,
    Pi.smul_apply, smul_eq_mul, Rz_mulVec_z]
  norm_num

lemma sum_affine (z0 dz c : ℝ) (m : ℕ) :
    ((List.range m).map fun i : ℕ => z0 + (i : ℝ) * dz - c).sum
      = (m : ℝ) * (z0 - c) + dz * ((m : ℝ) * ((m : ℝ) - 1) / 2) := by
  induction m with
  | zero => simp
  | succ k ih =>
    rw [List.range_succ, List.map_append, List.sum_append, ih]
    simp only [List.map_cons, List.map_nil, List.sum_cons, List.sum_nil]
    push_cast
    ring

lemma sum_flatMap_list {α M : Type} [AddCommMonoid M] (l : List α)
    (f : α → List M) :
    (l.flatMap f).sum = (l.map fun a => (f a).sum).sum := by
  induction l with
  | nil => simp
  | cons a l ih => simp [ih]

lemma positions_length (rise twist : ℝ) (m : ℕ) (r0 : Fin 3 → ℝ)
    (n : ℕ) (degrees : Bool) :
    (compute_helical_lattice_positions rise twist m r0 n degrees).length
      = n * m := by
  unfold compute_helical_lattice_positions
  simp [List.length_flatMap, Function.comp_def]

lemma rotations_length (twist : ℝ) (m : ℕ) (R0 : Matrix (Fin 3) (Fin 3) ℝ)
    (n : ℕ) (degrees : Bool) :
    (compute_helical_lattice_rotations twist m R0 n degrees).length
      = n * m := by
  unfold compute_helical_lattice_rotations
  simp [List.length_flatMap, Function.comp_def]

/-- The mean z-coordinate of the helical lattice equals the z-component of
the initial displacement: the rise accumulation is centered away, while
rotations about the screw axis leave z untouched. -/
lemma meanZ_positions (rise twist : ℝ) (m : ℕ) (r0 : Fin 3 → ℝ)
    (n : ℕ) (degrees : Bool) (hn : 1 ≤ n) (hm : 1 ≤ m) :
    meanZ (compute_helical_lattice_positions rise twist m r0 n degrees)
      = r0 2 := by
  unfold meanZ
  rw [positions_length]
  unfold compute_helical_lattice_positions
  rw [List.map_flatMap, sum_flatMap_list]
  have hinner : ∀ k : ℕ,
      (((List.range m).map fun i =>
        (Rz (2 * Real.pi * (k : ℝ) / (n : ℝ))).mulVec
          (ithSubunitPositionInSubhelix
            (if degrees then deg2rad twist else twist) rise r0 m i)).map
              fun p => p 2).sum = (m : ℝ) * r0 2 := by
    intro k
    rw [List.map_map]
    have heq : ((fun p : Fin 3 → ℝ => p 2) ∘ fun i : ℕ =>
        (Rz (2 * Real.pi * (k : ℝ) / (n : ℝ))).mulVec
          (ithSubunitPositionInSubhelix
            (if degrees then deg2rad twist else twist) rise r0 m i))
        = fun i : ℕ => r0 2 + (i : ℝ) * rise - rise * ((m : ℝ) - 1) / 2 := by
      funext i
      simp [Function.comp, Rz_mulVec_z, ith_z]
    rw [heq, sum_affine]
    ring
  simp only [hinner]
  rw [List.map_const', List.sum_replicate, List.length_range, nsmul_eq_mul]
  have h1 : (n : ℝ) ≠ 0 := Nat.cast_ne_zero.mpr (by omega)
  have h2 : (m : ℝ) ≠ 0 := Nat.cast_ne_zero.mpr (by omega)
  push_cast
  field_simp
  ring

lemma Rz_transpose (φ : ℝ) :
    (Rz φ)ᵀ = !![Real.cos φ, Real.sin φ, 0;
                 -Real.sin φ, Real.cos φ, 0;
                 0, 0, 1] := by
  ext i j
  fin_cases i <;> fin_cases j <;> simp [Rz]

lemma Rz_transpose_mul_self (φ : ℝ) : (Rz φ)ᵀ * Rz φ = 1 := by
  rw [Rz_transpose]
  ext i j
  rw [Matrix.mul_apply, Fin.sum_univ_three]
  fin_cases i <;> fin_cases j <;> simp [Rz, Matrix.one_apply]
  all_goals linarith [Real.sin_sq_add_cos_sq φ]

lemma Rz_det (φ : ℝ) : (Rz φ).det = 1 := by
  simp [Rz, Matrix.det_fin_three]
  linear_combination Real.sin_sq_add_cos_sq φ

lemma transpose_mul_self_of (A B : Matrix (Fin 3) (Fin 3) ℝ)
    (hA : Aᵀ * A = 1) (hB : Bᵀ * B = 1) : (A * B)ᵀ * (A * B) = 1 := by
  rw [Matrix.transpose_mul]
  calc Bᵀ * Aᵀ * (A * B) = Bᵀ * (Aᵀ * A) * B := by
        rw [Matrix.mul_assoc, Matrix.mul_assoc, Matrix.mul_assoc]
    _ = Bᵀ * B := by rw [hA, Matrix.mul_one]
    _ = 1 := hB

/-! ## Theorems for the helix claims -/

/-- C8: `Helix.__check_init__` raises exactly when the subunit count is not
a multiple of the start number, and accepts exact multiples. -/
theorem c8_check_init_iff (n_subunits n_start : ℕ) (h : 1 ≤ n_start) :
    (helixCheckInit n_subunits n_start
        = Except.error
          "The number of subunits must be a multiple of the helical start number."
      ↔ n_subunits % n_start ≠ 0)
    ∧ (n_subunits % n_start = 0 →
        helixCheckInit n_subunits n_start = Except.ok ()) := by
  constructor
  · constructor
    · intro herr hmod
      simp [helixCheckInit, hmod] at herr
    · intro hmod
      simp [helixCheckInit, hmod]
  · intro hmod
    simp [helixCheckInit, hmod]

/-- C8 witness: `n_subunits = 7`, `n_start = 3` raises; `6, 3` is accepted. -/
theorem c8_check_init_iff_witness :
    (1 : ℕ) ≤ 3 ∧
    ((helixCheckInit 7 3
        = Except.error
          "The number of subunits must be a multiple of the helical start number."
      ↔ 7 % 3 ≠ 0)
    ∧ (7 % 3 = 0 → helixCheckInit 7 3 = Except.ok ())) :=
  ⟨by decide, c8_check_init_iff 7 3 (by decide)⟩

/-- C2 counterexample: with an initial displacement whose z-component is 1
(rise 0, twist 0, one subunit, one start), the mean z-coordinate of the
lattice positions is 1, not 0 as the claim states. -/
theorem c2_counterexample :
    meanZ (compute_helical_lattice_positions 0 0 1 ![0, 0, 1] 1 true) ≠ 0 := by
  rw [meanZ_positions 0 0 1 ![0, 0, 1] 1 true (by decide) (by decide)]
  norm_num

/-- C2 (amended): for `n_start ≥ 1` and `n_subunits_per_start ≥ 1`, the
position and rotation arrays each have `n_start * n_subunits_per_start`
rows, and the mean z-coordinate of the positions equals the z-component of
the initial displacement (so it is 0 whenever that component is 0, the rise
accumulation having been centered by `rise·(m−1)/2`). -/
theorem c2_lattice_shape_and_centering (rise twist : ℝ) (m : ℕ)
    (r0 : Fin 3 → ℝ) (R0 : Matrix (Fin 3) (Fin 3) ℝ) (n : ℕ) (degrees : Bool)
    (hn : 1 ≤ n) (hm : 1 ≤ m) :
    (compute_helical_lattice_positions rise twist m r0 n degrees).length
        = n * m
    ∧ (compute_helical_lattice_rotations twist m R0 n degrees).length
        = n * m
    ∧ meanZ (compute_helical_lattice_positions rise twist m r0 n degrees)
        = r0 2 :=
  ⟨positions_length rise twist m r0 n degrees,
    rotations_length twist m R0 n degrees,
    meanZ_positions rise twist m r0 n degrees hn hm⟩

/-- C2 witness: a 2-start helix with 3 subunits per start and a purely
in-plane initial displacement. -/
theorem c2_lattice_shape_and_centering_witness :
    (1 : ℕ) ≤ 2 ∧ (1 : ℕ) ≤ 3 ∧
    ((compute_helical_lattice_positions 5 10 3 ![1, 0, 0] 2 true).length
        = 2 * 3
    ∧ (compute_helical_lattice_rotations 10 3 1 2 true).length = 2 * 3
    ∧ meanZ (compute_helical_lattice_positions 5 10 3 ![1, 0, 0] 2 true)
        = ![1, 0, 0] 2) :=
  ⟨by decide, by decide,
    c2_lattice_shape_and_centering 5 10 3 ![1, 0, 0] 1 2 true
      (by decide) (by decide)⟩

/-- C10: every matrix produced by `compute_helical_lattice_rotations` from
an orthonormal, determinant-one initial rotation is itself orthonormal with
determinant one: each is a product of two rotations about the z-axis with
the initial rotation. -/
theorem c10_rotations_special_orthogonal (twist : ℝ) (m : ℕ)
    (R0 : Matrix (Fin 3) (Fin 3) ℝ) (n : ℕ) (degrees : Bool)
    (h0 : R0ᵀ * R0 = 1) (hdet : R0.det = 1) :
    ∀ M ∈ compute_helical_lattice_rotations twist m R0 n degrees,
      Mᵀ * M = 1 ∧ M.det = 1 := by
  intro M hM
  simp only [compute_helical_lattice_rotations, List.mem_flatMap,
    List.mem_map, List.mem_range] at hM
  obtain ⟨k, hk, i, hi, rfl⟩ := hM
  constructor
  · exact transpose_mul_self_of _ _ (Rz_transpose_mul_self _)
      (transpose_mul_self_of _ _ (Rz_transpose_mul_self _) h0)
  · simp [Matrix.det_mul, Rz_det, hdet]

/-- C10 witness: identity initial rotation, twist 30°, 2-start, 2 subunits
per start. -/
theorem c10_rotations_special_orthogonal_witness :
    ((1 : Matrix (Fin 3) (Fin 3) ℝ)ᵀ * 1 = 1) ∧
    ((1 : Matrix (Fin 3) (Fin 3) ℝ).det = 1) ∧
    (∀ M ∈ compute_helical_lattice_rotations 30 2 1 2 true,
      Mᵀ * M = 1 ∧ M.det = 1) :=
  ⟨by simp, by simp,
    c10_rotations_special_orthogonal 30 2 1 2 true (by simp) (by simp)⟩

/-! ## Lemmas and theorems for the assembly and distribution claims -/

lemma getD_map_of_lt {α β : Type} (f : α → β) (l : List α) (i : ℕ) (d : α)
    (e : β) (h : i < l.length) : (l.map f).getD i e = f (l.getD i d) := by
  induction l generalizing i with
  | nil => simp at h
  | cons a l ih =>
    cases i with
    | zero => simp
    | succ n =>
      simp only [List.map_cons, List.getD_cons_succ]
      exact ih n (by simpa using h)

lemma list_sum_re (l : List ℂ) : l.sum.re = (l.map Complex.re).sum := by
  induction l with
  | nil => simp
  | cons a l ih => simp [ih]

/-- C4: for every subunit `i`, `Assembly.poses` yields the offset
`(assembly rotation · lattice position) + assembly offset` and the rotation
`lattice rotation · assembly rotation`. -/
theorem c4_assembly_poses (positions : List (Fin 3 → ℝ))
    (rotations : List (Matrix (Fin 3) (Fin 3) ℝ)) (pose : Pose) (i : ℕ)
    (hp : i < positions.length) (hr : i < rotations.length) :
    (assemblyPoses positions rotations pose).offset_x.getD i 0
        = (pose.rotation.mulVec (positions.getD i 0) + pose.offset) 0
    ∧ (assemblyPoses positions rotations pose).offset_y.getD i 0
        = (pose.rotation.mulVec (positions.getD i 0) + pose.offset) 1
    ∧ (assemblyPoses positions rotations pose).offset_z.getD i 0
        = (pose.rotation.mulVec (positions.getD i 0) + pose.offset) 2
    ∧ (assemblyPoses positions rotations pose).matrix.getD i 1
        = rotations.getD i 1 * pose.rotation := by
  unfold assemblyPoses
  simp only [List.map_map]
  refine ⟨?_, ?_, ?_, ?_⟩
  · rw [getD_map_of_lt _ positions i 0 _ hp]
    simp [Function.comp]
  · rw [getD_map_of_lt _ positions i 0 _ hp]
    simp [Function.comp]
  · rw [getD_map_of_lt _ positions i 0 _ hp]
    simp [Function.comp]
  · rw [getD_map_of_lt _ rotations i 1 _ hr]

/-- C4 witness: one subunit at position `(1, 2, 3)` with identity lattice
rotation and identity assembly pose. -/
theorem c4_assembly_poses_witness :
    0 < [(![1, 2, 3] : Fin 3 → ℝ)].length ∧
    0 < [(1 : Matrix (Fin 3) (Fin 3) ℝ)].length ∧
    ((assemblyPoses [![1, 2, 3]] [1] ⟨![0, 0, 0], 1⟩).offset_x.getD 0 0
        = ((1 : Matrix (Fin 3) (Fin 3) ℝ).mulVec ([(![1, 2, 3] : Fin 3 → ℝ)].getD 0 0)
            + (![0, 0, 0] : Fin 3 → ℝ) : Fin 3 → ℝ) 0
    ∧ (assemblyPoses [![1, 2, 3]] [1] ⟨![0, 0, 0], 1⟩).offset_y.getD 0 0
        = ((1 : Matrix (Fin 3) (Fin 3) ℝ).mulVec ([(![1, 2, 3] : Fin 3 → ℝ)].getD 0 0)
            + (![0, 0, 0] : Fin 3 → ℝ) : Fin 3 → ℝ) 1
    ∧ (assemblyPoses [![1, 2, 3]] [1] ⟨![0, 0, 0], 1⟩).offset_z.getD 0 0
        = ((1 : Matrix (Fin 3) (Fin 3) ℝ).mulVec ([(![1, 2, 3] : Fin 3 → ℝ)].getD 0 0)
            + (![0, 0, 0] : Fin 3 → ℝ) : Fin 3 → ℝ) 2
    ∧ (assemblyPoses [![1, 2, 3]] [1] ⟨![0, 0, 0], 1⟩).matrix.getD 0 1
        = [(1 : Matrix (Fin 3) (Fin 3) ℝ)].getD 0 1 * (1 : Matrix (Fin 3) (Fin 3) ℝ)) :=
  ⟨by simp, by simp,
    c4_assembly_poses [![1, 2, 3]] [1] ⟨![0, 0, 0], 1⟩ 0 (by simp) (by simp)⟩

/-- C1: `sample` scales each real Gaussian draw by `variance(freq)` itself,
not by its square root as the specified noise model requires; at a mode with
variance 4 and unit draw the code adds noise 4 where the spec's scaling
yields 2. -/
theorem c1_sample_noise_scaling :
    sample (fun _ : Unit => (4 : ℝ)) [()] [1] [(0 : ℂ)] id = [(4 : ℂ)]
    ∧ sampleSpecScaled (fun _ : Unit => (4 : ℝ)) [()] [1] [(0 : ℂ)] id
        = [(2 : ℂ)]
    ∧ sample (fun _ : Unit => (4 : ℝ)) [()] [1] [(0 : ℂ)] id
        ≠ sampleSpecScaled (fun _ : Unit => (4 : ℝ)) [()] [1] [(0 : ℂ)] id := by
  have hs : Real.sqrt 4 = 2 := by
    rw [show (4 : ℝ) = 2 ^ 2 by norm_num, Real.sqrt_sq (by norm_num)]
  have h1 : sample (fun _ : Unit => (4 : ℝ)) [()] [1] [(0 : ℂ)] id
      = [(4 : ℂ)] := by
    simp [sample]
  have h2 : sampleSpecScaled (fun _ : Unit => (4 : ℝ)) [()] [1] [(0 : ℂ)] id
      = [(2 : ℂ)] := by
    simp [sampleSpecScaled, hs]
  refine ⟨h1, h2, ?_⟩
  rw [h1, h2]
  intro hcon
  have h4 : (4 : ℂ) = 2 := by
    simpa using hcon
  norm_num at h4

/-- C3: for an observed image of the correct shape, `log_probability`
returns the real sum of `|residual|² / (2·variance(freq))` over the cropped
frequency grid, divided by the number of cropped modes, the residual being
the uncropped render minus the observed image passed through the crop
chain. -/
theorem c3_log_probability_formula {F : Type} (padded_shape : ℕ × ℕ)
    (freqs : List F) (variance : F → ℝ) (rendered : List ℂ)
    (crop : List ℂ → List ℂ) (oshape : ℕ × ℕ) (observed : List ℂ)
    (hobs : oshape = padded_shape) :
    log_probability padded_shape freqs variance rendered crop oshape observed
      = Except.ok
          ((List.zipWith (fun r f => Complex.normSq r / (2 * variance f))
              (crop (List.zipWith (fun a b => a - b) rendered observed))
              freqs).sum
            / (crop (List.zipWith (fun a b => a - b) rendered observed)).length) := by
  unfold log_probability
  rw [if_neg (by simp [hobs])]
  show Except.ok
      ((List.zipWith
          (fun r f => r * (starRingEnd ℂ) r / (2 * ((variance f : ℝ) : ℂ)))
          (crop (List.zipWith (fun a b => a - b) rendered observed))
          freqs).sum.re
        / ((crop (List.zipWith (fun a b => a - b) rendered observed)).length : ℝ))
      = _
  congr 1
  rw [list_sum_re, List.map_zipWith]
  have hfun : (fun (r : ℂ) (f : F) =>
        (r * (starRingEnd ℂ) r / (2 * ((variance f : ℝ) : ℂ))).re)
      = fun (r : ℂ) (f : F) => Complex.normSq r / (2 * variance f) := by
    funext r f
    rw [Complex.mul_conj,
      show ((2 : ℂ) * ((variance f : ℝ) : ℂ)) = (((2 * variance f : ℝ)) : ℂ) by
        push_cast; ring,
      ← Complex.ofReal_div, Complex.ofReal_re]
  rw [hfun]

/-- C3 witness: one mode, unit variance, render 2, observed 0; the
log-probability is `|2|²/2 / 1 = 2`. -/
theorem c3_log_probability_formula_witness :
    ((1, 1) : ℕ × ℕ) = (1, 1) ∧
    log_probability (1, 1) [()] (fun _ : Unit => (1 : ℝ)) [(2 : ℂ)] id (1, 1)
        [(0 : ℂ)]
      = Except.ok
          ((List.zipWith
              (fun r f => Complex.normSq r / (2 * (fun _ : Unit => (1 : ℝ)) f))
              (id (List.zipWith (fun a b => a - b) [(2 : ℂ)] [(0 : ℂ)]))
              [()]).sum
            / (id (List.zipWith (fun a b => a - b) [(2 : ℂ)] [(0 : ℂ)])).length) :=
  ⟨rfl,
    c3_log_probability_formula (1, 1) [()] (fun _ : Unit => (1 : ℝ)) [(2 : ℂ)]
      id (1, 1) [(0 : ℂ)] rfl⟩

/-- C9: `log_probability` raises the shape-validation error exactly when the
observed shape differs from the padded grid shape (last axis dropped), and
on a mismatch the error is raised before anything else is computed: the
result does not depend on the frequency grid, variance, render or crop
chain. -/
theorem c9_shape_validation {F F2 : Type} (padded_shape : ℕ × ℕ)
    (freqs : List F) (variance : F → ℝ) (rendered : List ℂ)
    (crop : List ℂ → List ℂ) (oshape : ℕ × ℕ) (observed : List ℂ)
    (freqs2 : List F2) (variance2 : F2 → ℝ) (rendered2 : List ℂ)
    (crop2 : List ℂ → List ℂ) (observed2 : List ℂ) :
    (log_probability padded_shape freqs variance rendered crop oshape observed
        = Except.error "Shape of observed must match ImageConfig.padded_shape"
      ↔ oshape ≠ padded_shape)
    ∧ (oshape ≠ padded_shape →
        log_probability padded_shape freqs variance rendered crop oshape
            observed
          = log_probability padded_shape freqs2 variance2 rendered2 crop2
              oshape observed2) := by
  by_cases h : oshape = padded_shape
  · subst h
    constructor
    · simp [log_probability]
    · intro hcon
      exact absurd rfl hcon
  · constructor
    · simp [log_probability, h]
    · intro _
      simp [log_probability, h]

/-- C9 witness: a `(2, 2)` observed image against a `(1, 1)` padded shape
raises, and the error does not depend on the other inputs. -/
theorem c9_shape_validation_witness :
    (log_probability (1, 1) [()] (fun _ : Unit => (1 : ℝ)) [(0 : ℂ)] id (2, 2)
        [(0 : ℂ)]
      = Except.error "Shape of observed must match ImageConfig.padded_shape"
      ↔ ((2, 2) : ℕ × ℕ) ≠ (1, 1))
    ∧ (((2, 2) : ℕ × ℕ) ≠ (1, 1) →
        log_probability (1, 1) [()] (fun _ : Unit => (1 : ℝ)) [(0 : ℂ)] id
            (2, 2) [(0 : ℂ)]
          = log_probability (1, 1) [((0 : ℝ), (0 : ℝ))]
              (fun _ : ℝ × ℝ => (7 : ℝ)) [(5 : ℂ)] (fun _ => []) (2, 2) []) :=
  c9_shape_validation (1, 1) [()] (fun _ : Unit => (1 : ℝ)) [(0 : ℂ)] id
    (2, 2) [(0 : ℂ)] [((0 : ℝ), (0 : ℝ))] (fun _ : ℝ × ℝ => (7 : ℝ)) [(5 : ℂ)]
    (fun _ => []) []

/-! ## Lemmas and theorems for the NUFFT projection claim -/

lemma getD_map_range {β : Type} (n i : ℕ) (f : ℕ → β) (d : β) (h : i < n) :
    ((List.range n).map f).getD i d = f i := by
  rw [getD_map_of_lt f (List.range n) i 0 d (by simpa using h)]
  congr 1
  simp [List.getD_eq_getElem?_getD, List.getElem?_range, h]

lemma project_with_nufft_row (weights : List ℂ)
    (coords : List (ℝ × ℝ × ℝ)) (M1 M2 : ℕ) (a : ℕ) (ha : a < M1) :
    (project_with_nufft weights coords M1 M2).getD a []
      = (List.range (M2 / 2 + 1)).map fun b : ℕ =>
          if M2 % 2 = 0 ∧ b = M2 / 2 then 0
          else if M1 % 2 = 0 ∧ a = M1 / 2 then 0
          else nufft1 M1 M2 weights
            (coords.map fun c => 2 * Real.pi * c.2.1 / (M2 : ℝ))
            (coords.map fun c => 2 * Real.pi * c.1 / (M1 : ℝ))
            ((a + M1 / 2) % M1) ((b + M2 / 2) % M2) := by
  simp only [project_with_nufft]
  rw [getD_map_range M1 a _ _ ha]

/-- C5: NUFFT projection returns `M1` rows of `M2/2 + 1` entries; the
zero-frequency mode (the sum of all weights) sits at the array corner
`(0, 0)`; for even `M2` the last column is exactly zero and for even `M1`
row `M1/2` is exactly zero. -/
theorem c5_nufft_shape_and_nyquist (weights : List ℂ)
    (coords : List (ℝ × ℝ × ℝ)) (M1 M2 : ℕ) (h1 : 1 ≤ M1) (h2 : 1 ≤ M2)
    (hlen : weights.length = coords.length) :
    (project_with_nufft weights coords M1 M2).length = M1
    ∧ (∀ row ∈ project_with_nufft weights coords M1 M2,
        row.length = M2 / 2 + 1)
    ∧ ((project_with_nufft weights coords M1 M2).getD 0 []).getD 0 1
        = weights.sum
    ∧ (M2 % 2 = 0 → ∀ a, a < M1 →
        ((project_with_nufft weights coords M1 M2).getD a []).getD (M2 / 2) 1
          = 0)
    ∧ (M1 % 2 = 0 → ∀ b, b < M2 / 2 + 1 →
        ((project_with_nufft weights coords M1 M2).getD (M1 / 2) []).getD b 1
          = 0) := by
  refine ⟨?_, ?_, ?_, ?_, ?_⟩
  · simp [project_with_nufft]
  · intro row hrow
    simp only [project_with_nufft, List.mem_map] at hrow
    obtain ⟨a, _, rfl⟩ := hrow
    simp
  · rw [project_with_nufft_row weights coords M1 M2 0 (by omega),
      getD_map_range (M2 / 2 + 1) 0 _ 1 (by omega)]
    rw [if_neg (by omega), if_neg (by omega),
      show (0 + M1 / 2) % M1 = M1 / 2 by
        rw [Nat.zero_add]; exact Nat.mod_eq_of_lt (by omega),
      show (0 + M2 / 2) % M2 = M2 / 2 by
        rw [Nat.zero_add]; exact Nat.mod_eq_of_lt (by omega)]
    unfold nufft1
    rw [show ((M1 / 2 : ℕ) : ℤ) - (M1 : ℤ) / 2 = 0 by omega,
      show ((M2 / 2 : ℕ) : ℤ) - (M2 : ℤ) / 2 = 0 by omega]
    simp only [Int.cast_zero, zero_mul, add_zero, mul_zero, Complex.exp_zero,
      mul_one]
    rw [show (fun q : ℂ × ℝ × ℝ => q.1) = (Prod.fst : ℂ × ℝ × ℝ → ℂ) from rfl]
    rw [List.map_fst_zip]
    simp [List.length_zip, hlen]
  · intro hM2 a ha
    rw [project_with_nufft_row weights coords M1 M2 a ha,
      getD_map_range (M2 / 2 + 1) (M2 / 2) _ 1 (by omega)]
    rw [if_pos ⟨hM2, rfl⟩]
  · intro hM1 b hb
    rw [project_with_nufft_row weights coords M1 M2 (M1 / 2) (by omega),
      getD_map_range (M2 / 2 + 1) b _ 1 hb]
    by_cases hc : M2 % 2 = 0 ∧ b = M2 / 2
    · rw [if_pos hc]
    · rw [if_neg hc, if_pos ⟨hM1, rfl⟩]

/-- C5 witness: a single unit weight at the origin projected onto a 2×2
image. -/
theorem c5_nufft_shape_and_nyquist_witness :
    (1 : ℕ) ≤ 2 ∧ (1 : ℕ) ≤ 2
    ∧ [(1 : ℂ)].length = [((0 : ℝ), (0 : ℝ), (0 : ℝ))].length
    ∧ ((project_with_nufft [1] [(0, 0, 0)] 2 2).length = 2
    ∧ (∀ row ∈ project_with_nufft [1] [(0, 0, 0)] 2 2,
        row.length = 2 / 2 + 1)
    ∧ ((project_with_nufft [1] [(0, 0, 0)] 2 2).getD 0 []).getD 0 1
        = [(1 : ℂ)].sum
    ∧ (2 % 2 = 0 → ∀ a, a < 2 →
        ((project_with_nufft [1] [(0, 0, 0)] 2 2).getD a []).getD (2 / 2) 1
          = 0)
    ∧ (2 % 2 = 0 → ∀ b, b < 2 / 2 + 1 →
        ((project_with_nufft [1] [(0, 0, 0)] 2 2).getD (2 / 2) []).getD b 1
          = 0)) :=
  ⟨by decide, by decide, rfl,
    c5_nufft_shape_and_nyquist [1] [(0, 0, 0)] 2 2 (by decide) (by decide) rfl⟩

end CryojaxSpec
